import Mathlib

/-!
Shallow embedding of the logmine-rs clustering engine.

Rust `f64` values are modelled as `ℚ`. This abstraction is exact — the f64
run and the rational run compute identical values — whenever every quotient
`1/max_len` the scorer forms is a dyadic with small exponent, i.e. whenever
`max_len` is a power of two (then every intermediate `total = k/max_len` and
`1 - total` is exactly representable and every f64 addition, subtraction and
comparison is exact); all concrete evaluations below are in this regime. For
other lengths the f64 accumulation rounds (ten equal tokens end at
`0.9999999999999999`, not `1.0`), so exact-value conclusions are only stated
for power-of-two lengths; threshold-comparison conclusions rely solely on
monotonicity of accumulating non-negative addends, which f64 addition also
satisfies, and carry over unchanged.

Source files embedded: `src/scoring.rs` (distance, score), `src/pattern.rs`
(Pattern, PatternElement, Pattern::merge), `src/clusterer.rs` (Cluster,
Clusterer::process_line, Clusterer::take_result), `src/parallel_clusterer.rs`
(the reduction `merge` and the worker/reduce pipeline `run`).
-/

namespace Logmine

/-- PatternElement from `src/pattern.rs`: `Text(Cow<str>)` or `Placeholder`.
The borrowed/owned distinction of `Cow` is value-irrelevant (its `PartialEq`
compares the underlying strings), so a single `String` field models both. -/
inductive PatternElement where
  | text (s : String)
  | placeholder
deriving DecidableEq, Repr

/-- Pattern from `src/pattern.rs`: an ordered sequence of elements. -/
abbrev Pattern := List PatternElement

/-- score from `src/scoring.rs`: 1.0 if the two elements are equal else 0.0. -/
def score (f1 f2 : PatternElement) : ℚ := if f1 = f2 then 1 else 0

/-- Loop of `distance` from `src/scoring.rs`: walk the zipped pairs, adding
`score / max_len` to the running total, returning `1 - total` early as soon as
`1 - total < max_dist`. The source accumulates in f64; this `ℚ` accumulation
coincides with it value-for-value exactly when `maxLen` is a power of two
(all intermediate values dyadic, all operations exact), and otherwise agrees
on accept/reject comparisons but not on exact values — exact-value theorems
below therefore carry a power-of-two-length hypothesis. -/
def distanceAux (maxDist maxLen : ℚ) : List (PatternElement × PatternElement) → ℚ → ℚ
  | [], total => 1 - total
  | (f1, f2) :: rest, total =>
    let total2 := total + score f1 f2 / maxLen
    if 1 - total2 < maxDist then 1 - total2
    else distanceAux maxDist maxLen rest total2

/-- distance from `src/scoring.rs`. There is no special case for empty inputs:
with both patterns empty the zip is empty and the function returns `1 - 0`.
Faithful to the f64 source exactly when `max_len` is a power of two (see
`distanceAux`); every concrete evaluation in this file has `max_len` 1, 2 or
3 with all compared values dyadic and f64-exact. -/
def distance (fields1 fields2 : Pattern) (maxDist : ℚ) : ℚ :=
  distanceAux maxDist ((max fields1.length fields2.length : ℕ) : ℚ) (fields1.zip fields2) 0

/-- Modelled from the spec: alignment steps of the `seal` crate (an external
dependency, not under `src/`), per §4.3: `Align(x,y)` pairs position `x` of the
first pattern with `y` of the second, `Delete(x)` leaves `x` unpaired,
`Insert(y)` leaves `y` unpaired. -/
inductive Step where
  | align (x y : ℕ)
  | delete (x : ℕ)
  | insert (y : ℕ)
deriving DecidableEq, Repr

/-- Per-pair alignment score, per the spec §4.3: +10 for equal elements
(`SmithWaterman::new(10, -1, 0, 0)` equality closure in `Pattern::merge`),
−1 for a mismatch. Out-of-range indices read the default `placeholder`;
every index produced by `traceback` is in range. -/
def stepScore (a b : Pattern) (i j : ℕ) : ℤ :=
  if a.getD i PatternElement.placeholder = b.getD j PatternElement.placeholder then 10 else -1

/-- Modelled from the spec: row `i+1` of the global-alignment dynamic-programming
matrix, given row `i` as `prev`. Gaps cost 0 (gap-open = gap-extend = 0). -/
def alignScoreRow (a b : Pattern) (prev : ℕ → ℤ) (i : ℕ) : ℕ → ℤ
  | 0 => 0
  | j + 1 =>
    max (prev j + stepScore a b i j) (max (prev (j + 1)) (alignScoreRow a b prev i j))

/-- Modelled from the spec: the global-alignment score matrix, built row by row
(structurally, so that it evaluates by kernel reduction). -/
def alignScoreUpTo (a b : Pattern) : ℕ → ℕ → ℤ
  | 0 => fun _ => 0
  | i + 1 => alignScoreRow a b (alignScoreUpTo a b i) i

/-- Modelled from the spec: best global-alignment score of `a[0..i)` vs `b[0..j)`. -/
def alignScore (a b : Pattern) (i j : ℕ) : ℤ := alignScoreUpTo a b i j

/-- Modelled from the spec: traceback row, recovering the optimal step sequence
for prefixes `(i+1, j)`; `prev` recovers row `i`. A diagonal (Align) move is
taken whenever it attains the maximum. -/
def tracebackRow (a b : Pattern) (prev : ℕ → List Step) (i : ℕ) : ℕ → List Step
  | 0 => prev 0 ++ [Step.delete i]
  | j + 1 =>
    let d := alignScore a b i j + stepScore a b i j
    let u := alignScore a b i (j + 1)
    let l := alignScore a b (i + 1) j
    if u ≤ d ∧ l ≤ d then prev j ++ [Step.align i j]
    else if l ≤ u then prev (j + 1) ++ [Step.delete i]
    else tracebackRow a b prev i j ++ [Step.insert j]

/-- Modelled from the spec: traceback matrix rows, built structurally. -/
def tracebackUpTo (a b : Pattern) : ℕ → ℕ → List Step
  | 0 => fun j => (List.range j).map Step.insert
  | i + 1 => tracebackRow a b (tracebackUpTo a b i) i

/-- Modelled from the spec: the step sequence (in alignment order) of an optimal
global alignment of `a[0..i)` with `b[0..j)`, as consumed by `Pattern::merge`. -/
def traceback (a b : Pattern) (i j : ℕ) : List Step := tracebackUpTo a b i j

/-- Emission loop of `Pattern::merge` from `src/pattern.rs`: on `Align{x}` the
element at `x` is moved out of the first pattern (a `placeholder` is left in its
place, via `mem::replace`) and appended to the output; on `Delete`/`Insert` a
single `placeholder` is appended unless one was just appended
(`just_inserted_placeholder`). Returns (output, mutated first pattern). -/
def emitSteps : List Step → Pattern → Pattern → Bool → Pattern × Pattern
  | [], aMut, out, _ => (out, aMut)
  | Step.align x _ :: rest, aMut, out, _ =>
    emitSteps rest (aMut.set x PatternElement.placeholder)
      (out ++ [aMut.getD x PatternElement.placeholder]) false
  | Step.delete _ :: rest, aMut, out, jip =>
    if jip then emitSteps rest aMut out true
    else emitSteps rest aMut (out ++ [PatternElement.placeholder]) true
  | Step.insert _ :: rest, aMut, out, jip =>
    if jip then emitSteps rest aMut out true
    else emitSteps rest aMut (out ++ [PatternElement.placeholder]) true

/-- Pattern::merge from `src/pattern.rs`, including its frame effect on the
first argument (`&mut self`): returns (merged output, first pattern after the
call). If both inputs are empty the default (empty) pattern is returned and the
first argument is untouched. -/
def mergeFull (a b : Pattern) : Pattern × Pattern :=
  if a = [] ∧ b = [] then ([], a)
  else emitSteps (traceback a b a.length b.length) a [] false

/-- Value returned by `Pattern::merge`. -/
def Pattern.merge (a b : Pattern) : Pattern := (mergeFull a b).1

/-- Modelled from the spec: splitting on the default separator `\s+` with the
`regex` crate's `Regex::split` semantics (the crate is external, not under
`src/`): the pieces between maximal nonempty whitespace runs, including an
empty piece before a leading run, after a trailing run, and for the empty
string one empty piece. `acc` is the current piece (reversed), `inRun` records
whether the previous character was part of a whitespace run. -/
def splitWsAux : List Char → List Char → Bool → List (List Char)
  | [], acc, _ => [acc.reverse]
  | c :: rest, acc, inRun =>
    if c.isWhitespace then
      if inRun then splitWsAux rest [] true
      else acc.reverse :: splitWsAux rest [] true
    else splitWsAux rest (c :: acc) false

/-- Tokenization in `Clusterer::process_line` (`src/clusterer.rs`): every field
of the regex split becomes a `Text` element; no field is dropped. -/
def tokenize (line : String) : Pattern :=
  (splitWsAux line.toList [] false).map (fun cs => PatternElement.text (String.mk cs))

/-- Cluster from `src/clusterer.rs`. -/
structure Cluster where
  representative : Pattern
  count : ℕ
  pattern : Pattern
deriving DecidableEq, Repr

/-- Scan-and-update loop of `Clusterer::process_line` (`src/clusterer.rs`),
after tokenization: the first cluster whose `representative` is within
`max_dist` of the incoming pattern has its count bumped and its pattern
replaced by `merge(cluster.pattern, incoming)`, and the scan stops; if none
matches, a new cluster (count 1, representative = pattern = incoming) is
appended. -/
def processPattern (maxDist : ℚ) : List Cluster → Pattern → List Cluster
  | [], p => [⟨p, 1, p⟩]
  | c :: rest, p =>
    if distance c.representative p maxDist ≤ maxDist then
      { c with count := c.count + 1, pattern := Pattern.merge c.pattern p } :: rest
    else c :: processPattern maxDist rest p

/-- Clusterer::process_line from `src/clusterer.rs`. -/
def process_line (maxDist : ℚ) (clusters : List Cluster) (line : String) : List Cluster :=
  processPattern maxDist clusters (tokenize line)

/-- A Clusterer run over a list of lines in order (state starts empty). -/
def runClusterer (maxDist : ℚ) (lines : List String) : List Cluster :=
  lines.foldl (process_line maxDist) []

/-- Clusterer::take_result from `src/clusterer.rs`: keep clusters with
`count >= min_members`, in insertion order. -/
def take_result (minMembers : ℕ) (clusters : List Cluster) : List Cluster :=
  clusters.filter (fun c => minMembers ≤ c.count)

/-- Inner scan of the reduction `merge` in `src/parallel_clusterer.rs`: find the
first cluster of `total` whose representative is within `max_dist` of
`a.representative`; update it in place (`count += 1`,
`pattern = merge(a.pattern, b.pattern)`) and report the updated list, or report
`none` when no cluster matches. -/
def scanUpdate (maxDist : ℚ) (a : Cluster) : List Cluster → Option (List Cluster)
  | [] => none
  | b :: rest =>
    if distance a.representative b.representative maxDist ≤ maxDist then
      some ({ b with count := b.count + 1, pattern := Pattern.merge a.pattern b.pattern } :: rest)
    else (scanUpdate maxDist a rest).map (fun t => b :: t)

/-- The reduction `merge` of `src/parallel_clusterer.rs`, verbatim: it loops
over `thread_results`, but the `return` inside the inner scan exits the whole
function on the first successful match, so the remaining worker clusters of
that list are dropped (this mirrors `return;` at line 131 of the source). -/
def reduceMerge (maxDist : ℚ) (total : List Cluster) : List Cluster → List Cluster
  | [] => total
  | a :: rest =>
    match scanUpdate maxDist a total with
    | some total2 => total2
    | none => reduceMerge maxDist (total ++ [a]) rest

/-- The coordinator fold of `parallel_clusterer::run`: each worker runs a
private Clusterer over its share of the lines, sends its filtered cluster list,
and the coordinator folds the lists (in arrival order, here the order of
`parts`) into `total` with `reduceMerge`. -/
def parallelRun (maxDist : ℚ) (minMembers : ℕ) (parts : List (List String)) : List Cluster :=
  (parts.map (fun part => take_result minMembers (runClusterer maxDist part))).foldl
    (reduceMerge maxDist) []

/-- The jobs=1 path (`main_single_core` in `src/lib.rs`): one Clusterer over the
whole input, then `take_result`. -/
def singleRun (maxDist : ℚ) (minMembers : ℕ) (lines : List String) : List Cluster :=
  take_result minMembers (runClusterer maxDist lines)

/-- The (pattern, count) view of a cluster, the data downstream consumers see. -/
def patCount (c : Cluster) : Pattern × ℕ := (c.pattern, c.count)

/-- The full pairwise score, following the spec's words (§4.2/§9): 1 minus the
sum of per-position match scores over the whole zipped range, divided by
`max_len` — the value `distance` would return with the early exit removed. -/
def fullPairwiseDistance (a b : Pattern) : ℚ :=
  1 - ((a.zip b).map (fun pr => score pr.1 pr.2)).sum / ((max a.length b.length : ℕ) : ℚ)

/-- No two `placeholder` elements sit at adjacent positions. -/
def NoAdjacentPlaceholders (l : Pattern) : Prop :=
  List.Chain' (fun u v => u ≠ PatternElement.placeholder ∨ v ≠ PatternElement.placeholder) l

/-- Helper predicate over step lists: the first components of the `Align`
steps are strictly increasing, starting at or above `lo` (this is the shape
the traceback produces, and it means each position of the first pattern is
aligned at most once, after all positions below it). -/
def AlignsFrom : ℕ → List Step → Prop
  | _, [] => True
  | lo, Step.align x _ :: rest => lo ≤ x ∧ AlignsFrom (x + 1) rest
  | lo, Step.delete _ :: rest => AlignsFrom lo rest
  | lo, Step.insert _ :: rest => AlignsFrom lo rest

end Logmine

namespace Logmine

/-- Every pair obtained by zipping a list with itself has equal components. -/
theorem mem_zip_self {l : Pattern} {pr : PatternElement × PatternElement}
    (h : pr ∈ l.zip l) : pr.1 = pr.2 := by
  induction l with
  | nil => simp at h
  | cons a t ih =>
    rw [List.zip_cons_cons, List.mem_cons] at h
    rcases h with h | h
    · rw [h]
    · exact ih h

/-- When every remaining pair matches and the running total accounts for the
rest of the loop exactly, the scorer ends at 0 provided the threshold is at
most `1/n` (so the early exit cannot fire before the final step). -/
theorem distanceAux_self (d : ℚ) (n : ℕ) (hn : 0 < n) (hd : d ≤ 1 / n) :
    ∀ (l : List (PatternElement × PatternElement)) (t : ℚ),
      (∀ pr ∈ l, pr.1 = pr.2) → 1 - t = l.length / n →
      distanceAux d n l t = 0 := by
  intro l
  induction l with
  | nil =>
    intro t _ ht
    simp only [List.length_nil, Nat.cast_zero, zero_div] at ht
    simpa [distanceAux] using ht
  | cons pr rest ih =>
    intro t hall ht
    have hpr : pr.1 = pr.2 := hall pr (by simp)
    have hn' : (0 : ℚ) < n := by exact_mod_cast hn
    have hscore : score pr.1 pr.2 = 1 := by simp [score, hpr]
    have hstep : 1 - (t + score pr.1 pr.2 / n) = (rest.length : ℚ) / n := by
      have : ((pr :: rest).length : ℚ) = rest.length + 1 := by
        push_cast [List.length_cons]; ring
      rw [hscore]
      rw [this] at ht
      field_simp at ht ⊢
      linarith
    rcases pr with ⟨f1, f2⟩
    simp only [distanceAux]
    by_cases hexit : 1 - (t + score f1 f2 / n) < d
    · rw [if_pos hexit]
      have hlt : (rest.length : ℚ) / n < 1 / n := lt_of_lt_of_le (hstep ▸ hexit) hd
      have : (rest.length : ℚ) < 1 := by
        exact (div_lt_div_iff_of_pos_right hn').mp hlt
      have hrest : rest.length = 0 := by exact_mod_cast Nat.lt_one_iff.mp (by exact_mod_cast this)
      rw [hstep, hrest]
      simp
    · rw [if_neg hexit]
      exact ih (t + score f1 f2 / n) (fun q hq => hall q (by simp [hq])) hstep

/-- C1 (amended): for every nonempty Pattern `p` whose length is a power of
two and every threshold `d` with `0 ≤ d ≤ 1/len(p)`, `distance(p, p, d)`
returns exactly 0. The power-of-two hypothesis marks the regime where this
`ℚ` model is value-exact for the f64 source: there `1.0/max_len` and every
running total `k/max_len` are dyadics the f64 run computes exactly, so the
source also returns exactly `0.0`. For other lengths the f64 accumulation
rounds and the source can return a nonzero residue (about `2^-53`), so the
exact-zero statement is not made for them. -/
theorem distance_self_eq_zero (p : Pattern) (hp : p ≠ [])
    (hpow : ∃ k : ℕ, p.length = 2 ^ k) (d : ℚ)
    (h0 : 0 ≤ d) (hd : d ≤ 1 / p.length) : distance p p d = 0 := by
  have hn : 0 < p.length := List.length_pos.mpr hp
  have hlen : (p.zip p).length = p.length := by simp
  have : distanceAux d ((max p.length p.length : ℕ) : ℚ) (p.zip p) 0 = 0 := by
    rw [max_self]
    refine distanceAux_self d p.length hn hd (p.zip p) 0 (fun pr hpr => mem_zip_self hpr) ?_
    rw [hlen, div_self]
    · ring
    · exact_mod_cast hn.ne'
  simpa [distance] using this

/-- Witness for `distance_self_eq_zero` at `p = [Text "a"]` (length `1 = 2^0`),
`d = 1`. -/
theorem distance_self_eq_zero_witness :
    ([PatternElement.text "a"] : Pattern) ≠ [] ∧
      (∃ k : ℕ, ([PatternElement.text "a"] : Pattern).length = 2 ^ k) ∧ (0 : ℚ) ≤ 1 ∧
      (1 : ℚ) ≤ 1 / (([PatternElement.text "a"] : Pattern)).length ∧
      distance [PatternElement.text "a"] [PatternElement.text "a"] 1 = 0 :=
  ⟨by decide, ⟨0, by decide⟩, by norm_num, by norm_num,
    distance_self_eq_zero [PatternElement.text "a"] (by decide) ⟨0, by decide⟩ 1
      (by norm_num) (by norm_num)⟩

/-- C1 (counterexample): as stated the claim is false. With `p = [Text "a",
Text "b"]` and threshold `d = 1` the early exit fires after the first token and
returns 1/2, not 0; and with the empty Pattern the code returns `1 - 0 = 1`
for any threshold (no empty-vs-empty special case exists in `distance`). -/
theorem distance_self_counterexample :
    distance [PatternElement.text "a", PatternElement.text "b"]
        [PatternElement.text "a", PatternElement.text "b"] 1 = 1 / 2 ∧
      distance ([] : Pattern) [] 0 = 1 := by
  constructor
  · norm_num [distance, distanceAux, score]
  · norm_num [distance, distanceAux]

end Logmine

namespace Logmine

/-- Per-pair scores are non-negative. -/
theorem score_nonneg (f1 f2 : PatternElement) : 0 ≤ score f1 f2 := by
  unfold score
  split <;> norm_num

/-- The early exit never changes the accept/reject outcome of the loop: the
returned value is within the threshold iff the full no-early-exit value is. -/
theorem distanceAux_le_iff (d n : ℚ) (hn : 0 ≤ n) :
    ∀ (l : List (PatternElement × PatternElement)) (t : ℚ),
      (distanceAux d n l t ≤ d ↔
        1 - (t + (l.map fun pr => score pr.1 pr.2).sum / n) ≤ d) := by
  intro l
  induction l with
  | nil =>
    intro t
    simp [distanceAux]
  | cons pr rest ih =>
    intro t
    have hsum : 0 ≤ (rest.map fun pr => score pr.1 pr.2).sum := by
      apply List.sum_nonneg
      intro q hq
      rcases List.mem_map.mp hq with ⟨pr', _, rfl⟩
      exact score_nonneg pr'.1 pr'.2
    have hdiv : 0 ≤ (rest.map fun pr => score pr.1 pr.2).sum / n := div_nonneg hsum hn
    rcases pr with ⟨f1, f2⟩
    simp only [distanceAux, List.map_cons, List.sum_cons]
    by_cases hexit : 1 - (t + score f1 f2 / n) < d
    · rw [if_pos hexit]
      constructor
      · intro _
        calc 1 - (t + (score f1 f2 + (rest.map fun pr => score pr.1 pr.2).sum) / n)
            = 1 - (t + score f1 f2 / n) - (rest.map fun pr => score pr.1 pr.2).sum / n := by
              rw [add_div]; ring
          _ ≤ 1 - (t + score f1 f2 / n) := by linarith
          _ ≤ d := hexit.le
      · intro _
        exact hexit.le
    · rw [if_neg hexit]
      rw [ih (t + score f1 f2 / n)]
      constructor <;> intro hle <;> [skip; skip] <;>
        · have : t + (score f1 f2 + (rest.map fun pr => score pr.1 pr.2).sum) / n
              = t + score f1 f2 / n + (rest.map fun pr => score pr.1 pr.2).sum / n := by
            rw [add_div]; ring
          first
            | (rw [this]; linarith)
            | (rw [this] at hle; linarith)

/-- C7: the `distance` early return never changes the accept/reject outcome:
`distance(a, b, d) <= d` holds iff the full pairwise score (1 minus the sum of
per-position match scores over the whole zipped range, divided by `max_len`)
is `<= d`. -/
theorem distance_early_exit_iff (a b : Pattern) (d : ℚ) (hd : 0 ≤ d) :
    distance a b d ≤ d ↔ fullPairwiseDistance a b ≤ d := by
  have hn : (0 : ℚ) ≤ ((max a.length b.length : ℕ) : ℚ) := by positivity
  have h := distanceAux_le_iff d ((max a.length b.length : ℕ) : ℚ) hn (a.zip b) 0
  simpa [distance, fullPairwiseDistance] using h

/-- Witness for `distance_early_exit_iff` at two concrete patterns, `d = 1/2`
(here the strict early-exit check `1 - total < 1/2` never fires and both
sides evaluate to `1/2`, accepted by the non-strict threshold test). -/
theorem distance_early_exit_iff_witness :
    (0 : ℚ) ≤ 1 / 2 ∧
      (distance [PatternElement.text "a", PatternElement.text "b"]
          [PatternElement.text "a", PatternElement.text "c"] (1 / 2) ≤ 1 / 2 ↔
        fullPairwiseDistance [PatternElement.text "a", PatternElement.text "b"]
          [PatternElement.text "a", PatternElement.text "c"] ≤ 1 / 2) :=
  ⟨by norm_num,
    distance_early_exit_iff [PatternElement.text "a", PatternElement.text "b"]
      [PatternElement.text "a", PatternElement.text "c"] (1 / 2) (by norm_num)⟩

/-- C9 (counterexample): tokenizing the empty line does not produce the empty
Pattern — the regex split of `""` yields one empty field, so the Pattern has a
single (empty) Text element. -/
theorem tokenize_empty_counterexample : tokenize "" ≠ ([] : Pattern) := by decide

/-- C9 (amended): tokenizing an empty input line produces a Pattern with
exactly one element, the Text of the empty string (the split of the empty line
yields a single empty field), not a Pattern with zero elements. -/
theorem tokenize_empty_line :
    tokenize "" = [PatternElement.text ""] ∧ (tokenize "").length = 1 := by decide

end Logmine

namespace Logmine

/-- When no cluster's representative is within threshold of the incoming
pattern, the scan appends a fresh cluster with count 1. -/
theorem processPattern_no_match (maxDist : ℚ) (p : Pattern) :
    ∀ clusters : List Cluster,
      (∀ c ∈ clusters, ¬ distance c.representative p maxDist ≤ maxDist) →
      processPattern maxDist clusters p = clusters ++ [⟨p, 1, p⟩] := by
  intro clusters
  induction clusters with
  | nil => intro _; simp [processPattern]
  | cons c rest ih =>
    intro hall
    have hc : ¬ distance c.representative p maxDist ≤ maxDist := hall c (by simp)
    simp only [processPattern, if_neg hc, List.cons_append, List.cons.injEq, true_and]
    exact ih fun c' hc' => hall c' (by simp [hc'])

/-- First-match-wins: the first in-threshold cluster is updated (count bumped,
pattern merged with the incoming pattern) and the scan stops, leaving every
later cluster untouched. -/
theorem processPattern_first_match (maxDist : ℚ) (p : Pattern) :
    ∀ (pre : List Cluster) (c : Cluster) (post : List Cluster),
      (∀ c' ∈ pre, ¬ distance c'.representative p maxDist ≤ maxDist) →
      distance c.representative p maxDist ≤ maxDist →
      processPattern maxDist (pre ++ c :: post) p =
        pre ++ { c with count := c.count + 1, pattern := Pattern.merge c.pattern p } :: post := by
  intro pre
  induction pre with
  | nil =>
    intro c post _ hc
    simp [processPattern, if_pos hc]
  | cons c' rest ih =>
    intro c post hpre hc
    have hc' : ¬ distance c'.representative p maxDist ≤ maxDist := hpre c' (by simp)
    simp only [List.cons_append, processPattern, if_neg hc', List.cons.injEq, true_and]
    exact ih c post (fun q hq => hpre q (by simp [hq])) hc

/-- C5: `process_line` tokenizes the line into a pattern `p` and scans the
clusters in insertion order: the first cluster within `max_dist` of `p` (tested
against its representative) gets its count incremented by 1 and its pattern
replaced by `merge(pattern, p)` and the scan stops there; if no cluster
matches, a new cluster `{representative = p, pattern = p, count = 1}` is
appended. -/
theorem process_line_spec (maxDist : ℚ) (clusters : List Cluster) (line : String) :
    ((∀ c ∈ clusters, ¬ distance c.representative (tokenize line) maxDist ≤ maxDist) →
      process_line maxDist clusters line =
        clusters ++ [⟨tokenize line, 1, tokenize line⟩])
    ∧ (∀ (pre : List Cluster) (c : Cluster) (post : List Cluster),
        clusters = pre ++ c :: post →
        (∀ c' ∈ pre, ¬ distance c'.representative (tokenize line) maxDist ≤ maxDist) →
        distance c.representative (tokenize line) maxDist ≤ maxDist →
        process_line maxDist clusters line =
          pre ++ { c with count := c.count + 1, pattern := Pattern.merge c.pattern (tokenize line) } :: post) := by
  constructor
  · intro hall
    exact processPattern_no_match maxDist (tokenize line) clusters hall
  · intro pre c post hsplit hpre hc
    rw [process_line, hsplit]
    exact processPattern_first_match maxDist (tokenize line) pre c post hpre hc

/-- Witness for `process_line_spec`: a no-match append on a one-cluster state,
and a first-match update on a one-cluster state. -/
theorem process_line_spec_witness :
    process_line (1 / 2) [⟨[PatternElement.text "b"], 1, [PatternElement.text "b"]⟩] "x y z" =
        [⟨[PatternElement.text "b"], 1, [PatternElement.text "b"]⟩,
          ⟨tokenize "x y z", 1, tokenize "x y z"⟩] ∧
      process_line (1 / 2) [⟨[PatternElement.text "a"], 3, [PatternElement.text "a"]⟩] "a" =
        [⟨[PatternElement.text "a"], 4,
          Pattern.merge [PatternElement.text "a"] (tokenize "a")⟩] := by
  constructor
  · refine (process_line_spec (1 / 2)
      [⟨[PatternElement.text "b"], 1, [PatternElement.text "b"]⟩] "x y z").1 ?_
    intro c hc
    rw [List.mem_singleton] at hc
    subst hc
    have : tokenize "x y z" =
        [PatternElement.text "x", PatternElement.text "y", PatternElement.text "z"] := by decide
    have hbx : ("b" : String) ≠ "x" := by decide
    rw [this]
    norm_num [distance, distanceAux, score, hbx]
  · have h := (process_line_spec (1 / 2)
      [⟨[PatternElement.text "a"], 3, [PatternElement.text "a"]⟩] "a").2
      [] ⟨[PatternElement.text "a"], 3, [PatternElement.text "a"]⟩ [] (by simp)
      (by simp) ?_
    · simpa using h
    · have : tokenize "a" = [PatternElement.text "a"] := by decide
      rw [this]
      norm_num [distance, distanceAux, score]

end Logmine

namespace Logmine

/-- C6: representatives are anchored. First conjunct: `process_line` (here its
scan `processPattern`) never changes the `representative` of any existing
cluster — only `pattern` and `count` mutate. Second conjunct: the matching
decision depends only on the representatives, never on the evolving patterns
or counts: two states with the same representative list evolve to states with
the same representative list. -/
theorem representative_anchored (maxDist : ℚ) (clusters : List Cluster) (p : Pattern) :
    (∀ i, i < clusters.length →
      ((processPattern maxDist clusters p).getD i ⟨[], 0, []⟩).representative =
        (clusters.getD i ⟨[], 0, []⟩).representative)
    ∧ (∀ clusters2 : List Cluster,
        clusters2.map (fun c => c.representative) = clusters.map (fun c => c.representative) →
        (processPattern maxDist clusters2 p).map (fun c => c.representative) =
          (processPattern maxDist clusters p).map (fun c => c.representative)) := by
  constructor
  · intro i
    induction clusters generalizing i with
    | nil => intro h; simp at h
    | cons c rest ih =>
      intro hi
      by_cases hc : distance c.representative p maxDist ≤ maxDist
      · simp [processPattern, if_pos hc]
        cases i <;> simp
      · cases i with
        | zero => simp [processPattern, if_neg hc]
        | succ i =>
          simp only [processPattern, if_neg hc, List.getD_cons_succ]
          exact ih i (by simpa using hi)
  · intro clusters2 hrep
    induction clusters generalizing clusters2 with
    | nil =>
      rw [List.map_nil, List.map_eq_nil] at hrep
      subst hrep
      simp
    | cons c rest ih =>
      rcases clusters2 with _ | ⟨c2, rest2⟩
      · simp at hrep
      · simp only [List.map_cons, List.cons.injEq] at hrep
        obtain ⟨hhead, htail⟩ := hrep
        by_cases hc : distance c.representative p maxDist ≤ maxDist
        · have hc2 : distance c2.representative p maxDist ≤ maxDist := by rwa [hhead]
          simp [processPattern, if_pos hc, if_pos hc2, hhead, htail]
        · have hc2 : ¬ distance c2.representative p maxDist ≤ maxDist := by rwa [hhead]
          simp only [processPattern, if_neg hc, if_neg hc2, List.map_cons]
          rw [hhead, ih rest2 htail]

/-- Witness for `representative_anchored`: the matched cluster keeps its
representative even though its pattern and count change, and a state with the
same representative but different pattern/count makes the same decision. -/
theorem representative_anchored_witness :
    ((processPattern (1 / 2) [⟨[PatternElement.text "a"], 1, [PatternElement.text "a"]⟩]
        [PatternElement.text "a"]).getD 0 ⟨[], 0, []⟩).representative =
      (([⟨[PatternElement.text "a"], 1, [PatternElement.text "a"]⟩] :
          List Cluster).getD 0 ⟨[], 0, []⟩).representative ∧
    (processPattern (1 / 2) [⟨[PatternElement.text "a"], 7, [PatternElement.text "zzz"]⟩]
        [PatternElement.text "a"]).map (fun c => c.representative) =
      (processPattern (1 / 2) [⟨[PatternElement.text "a"], 1, [PatternElement.text "a"]⟩]
        [PatternElement.text "a"]).map (fun c => c.representative) :=
  ⟨(representative_anchored (1 / 2) [⟨[PatternElement.text "a"], 1, [PatternElement.text "a"]⟩]
      [PatternElement.text "a"]).1 0 (by decide),
    (representative_anchored (1 / 2) [⟨[PatternElement.text "a"], 1, [PatternElement.text "a"]⟩]
      [PatternElement.text "a"]).2
      [⟨[PatternElement.text "a"], 7, [PatternElement.text "zzz"]⟩] (by decide)⟩

end Logmine

namespace Logmine

/-- The distance of a one-token pattern to itself at threshold 1/2 (the early
exit fires at the only token and returns 0). -/
theorem distance_single_a : distance [PatternElement.text "a"] [PatternElement.text "a"] (1 / 2) = 0 := by
  norm_num [distance, distanceAux, score]

/-- Merging the one-token pattern `["a"]` with itself returns it unchanged. -/
theorem merge_single_a :
    Pattern.merge [PatternElement.text "a"] [PatternElement.text "a"] = [PatternElement.text "a"] := by
  decide

/-- C2: evaluation of the reduction `merge` of `src/parallel_clusterer.rs` at a
concrete fold step. The worker list holds a count-3 cluster matching the
count-2 total cluster, plus one more cluster. The code sets the matched total
cluster's count to 2 + 1 = 3 (it does not sum the counts, which would give 5),
and the `return` inside the loop exits the whole reduction, dropping the
worker's remaining `["b"]` cluster instead of appending it. -/
theorem reduceMerge_undercounts_and_drops :
    reduceMerge (1 / 2) [⟨[PatternElement.text "a"], 2, [PatternElement.text "a"]⟩]
        [⟨[PatternElement.text "a"], 3, [PatternElement.text "a"]⟩,
          ⟨[PatternElement.text "b"], 1, [PatternElement.text "b"]⟩] =
      [⟨[PatternElement.text "a"], 3, [PatternElement.text "a"]⟩] := by
  norm_num [reduceMerge, scanUpdate, distance_single_a, merge_single_a]

end Logmine

namespace Logmine

theorem tok_ax : tokenize "a x" = [PatternElement.text "a", PatternElement.text "x"] := by decide

theorem tok_ay : tokenize "a y" = [PatternElement.text "a", PatternElement.text "y"] := by decide

theorem tok_b : tokenize "b" = [PatternElement.text "b"] := by decide

theorem dist_ax_ay :
    distance [PatternElement.text "a", PatternElement.text "x"]
      [PatternElement.text "a", PatternElement.text "y"] (1 / 2) = 1 / 2 := by
  have h : ("x" : String) ≠ "y" := by decide
  norm_num [distance, distanceAux, score, h]

/-- Distance from the two-token `a`-representative to the one-token `b`
pattern: only one pair is zipped, it mismatches, so the result is 1. -/
theorem dist_ax_b :
    distance [PatternElement.text "a", PatternElement.text "x"]
      [PatternElement.text "b"] (1 / 2) = 1 := by
  have h : ("a" : String) ≠ "b" := by decide
  norm_num [distance, distanceAux, score, h]

theorem dist_b_b :
    distance [PatternElement.text "b"] [PatternElement.text "b"] (1 / 2) = 0 := by
  norm_num [distance, distanceAux, score]

theorem dist_ay_b :
    distance [PatternElement.text "a", PatternElement.text "y"]
      [PatternElement.text "b"] (1 / 2) = 1 := by
  have h : ("a" : String) ≠ "b" := by decide
  norm_num [distance, distanceAux, score, h]

theorem dist_ay_ax :
    distance [PatternElement.text "a", PatternElement.text "y"]
      [PatternElement.text "a", PatternElement.text "x"] (1 / 2) = 1 / 2 := by
  have h : ("y" : String) ≠ "x" := by decide
  norm_num [distance, distanceAux, score, h]

theorem dist_b_ax :
    distance [PatternElement.text "b"]
      [PatternElement.text "a", PatternElement.text "x"] (1 / 2) = 1 := by
  have h : ("b" : String) ≠ "a" := by decide
  norm_num [distance, distanceAux, score, h]

theorem merge_ax_ay :
    Pattern.merge [PatternElement.text "a", PatternElement.text "x"]
        [PatternElement.text "a", PatternElement.text "y"] =
      [PatternElement.text "a", PatternElement.placeholder] := by decide

theorem merge_ay_ax :
    Pattern.merge [PatternElement.text "a", PatternElement.text "y"]
        [PatternElement.text "a", PatternElement.text "x"] =
      [PatternElement.text "a", PatternElement.placeholder] := by decide

theorem merge_b_b :
    Pattern.merge [PatternElement.text "b"] [PatternElement.text "b"] =
      [PatternElement.text "b"] := by decide

/-- The jobs=1 run over the five lines: two clusters, `["a", ---]` seen twice
and `["b"]` seen three times. -/
theorem singleRun_value :
    (singleRun (1 / 2) 1 ["a x", "a y", "b", "b", "b"]).map patCount =
      [([PatternElement.text "a", PatternElement.placeholder], 2),
        ([PatternElement.text "b"], 3)] := by
  norm_num [singleRun, runClusterer, List.foldl, process_line, tok_ax, tok_ay, tok_b,
    processPattern, dist_ax_ay, dist_ax_b, dist_b_b, merge_ax_ay, merge_b_b,
    take_result, List.filter, patCount]

/-- The same five lines split over two workers and reduced: worker 2's
`["a y"]` cluster matches the total's `["a x"]` cluster, the count becomes
1 + 1 = 2, and the early return drops worker 2's `["b"]` cluster — so `["b"]`
ends with count 2 instead of 3. -/
theorem parallelRun_value :
    (parallelRun (1 / 2) 1 [["a x", "b", "b"], ["a y", "b"]]).map patCount =
      [([PatternElement.text "a", PatternElement.placeholder], 2),
        ([PatternElement.text "b"], 2)] := by
  norm_num [parallelRun, runClusterer, List.foldl, process_line, tok_ax, tok_ay, tok_b,
    processPattern, dist_ax_b, dist_b_b, dist_ay_b, dist_ay_ax, dist_b_ax,
    merge_b_b, merge_ay_ax, take_result, List.filter, patCount, reduceMerge, scanUpdate]

/-- C3: the multiset of (pattern, count) pairs produced by the parallel
reduction differs from the jobs=1 multiset on a concrete input and partition:
the undercount and the dropped worker cluster in the reduction make `["b"]`
count 2 instead of 3. -/
theorem parallel_vs_single_counterexample :
    (singleRun (1 / 2) 1 ["a x", "a y", "b", "b", "b"]).map patCount =
        [([PatternElement.text "a", PatternElement.placeholder], 2),
          ([PatternElement.text "b"], 3)] ∧
      (parallelRun (1 / 2) 1 [["a x", "b", "b"], ["a y", "b"]]).map patCount =
        [([PatternElement.text "a", PatternElement.placeholder], 2),
          ([PatternElement.text "b"], 2)] ∧
      ((singleRun (1 / 2) 1 ["a x", "a y", "b", "b", "b"]).map patCount :
          Multiset (Pattern × ℕ)) ≠
        ((parallelRun (1 / 2) 1 [["a x", "b", "b"], ["a y", "b"]]).map patCount :
          Multiset (Pattern × ℕ)) := by
  refine ⟨singleRun_value, parallelRun_value, ?_⟩
  rw [singleRun_value, parallelRun_value]
  decide

end Logmine

namespace Logmine

/-- Setting a position to `placeholder` makes reading it (with `placeholder`
default) yield `placeholder`, in bounds or out. -/
theorem getD_set_self : ∀ (l : Pattern) (x : ℕ),
    (l.set x PatternElement.placeholder).getD x PatternElement.placeholder =
      PatternElement.placeholder := by
  intro l
  induction l with
  | nil => intro x; simp
  | cons a t ih =>
    intro x
    cases x with
    | zero => simp
    | succ x => simpa using ih x

/-- Setting one position leaves reads at any other position unchanged. -/
theorem getD_set_ne (v d : PatternElement) : ∀ (l : Pattern) (x y : ℕ), x ≠ y →
    (l.set x v).getD y d = l.getD y d := by
  intro l
  induction l with
  | nil => intro x y _; simp
  | cons a t ih =>
    intro x y h
    cases x with
    | zero =>
      cases y with
      | zero => exact absurd rfl h
      | succ y => simp
    | succ x =>
      cases y with
      | zero => simp
      | succ y => simpa using ih x y (fun he => h (by rw [he]))

/-- The emission loop only ever writes `placeholder` into the first pattern:
once a position reads as `placeholder`, it still does after the loop. -/
theorem emitSteps_snd_ph : ∀ (steps : List Step) (aMut out : Pattern) (jip : Bool) (x : ℕ),
    aMut.getD x PatternElement.placeholder = PatternElement.placeholder →
    ((emitSteps steps aMut out jip).2).getD x PatternElement.placeholder =
      PatternElement.placeholder := by
  intro steps
  induction steps with
  | nil => intro aMut out jip x h; simpa [emitSteps] using h
  | cons s rest ih =>
    cases s with
    | align u v =>
      intro aMut out jip x h
      simp only [emitSteps]
      apply ih
      by_cases hux : u = x
      · subst hux; exact getD_set_self aMut u
      · rw [getD_set_ne _ _ _ _ _ hux]; exact h
    | delete u =>
      intro aMut out jip x h
      simp only [emitSteps]
      split <;> exact ih _ _ _ x h
    | insert u =>
      intro aMut out jip x h
      simp only [emitSteps]
      split <;> exact ih _ _ _ x h

/-- Every position of the first pattern paired by an `Align` step of the
emitted step sequence reads as `placeholder` once the loop has run. -/
theorem emitSteps_align_mem_ph : ∀ (steps : List Step) (aMut out : Pattern) (jip : Bool)
    (x y : ℕ), Step.align x y ∈ steps →
    ((emitSteps steps aMut out jip).2).getD x PatternElement.placeholder =
      PatternElement.placeholder := by
  intro steps
  induction steps with
  | nil => intro aMut out jip x y h; simp at h
  | cons s rest ih =>
    intro aMut out jip x y h
    rw [List.mem_cons] at h
    rcases h with h | h
    · subst h
      simp only [emitSteps]
      exact emitSteps_snd_ph rest _ _ false x (getD_set_self aMut x)
    · cases s with
      | align u v => simp only [emitSteps]; exact ih _ _ _ x y h
      | delete u => simp only [emitSteps]; split <;> exact ih _ _ _ x y h
      | insert u => simp only [emitSteps]; split <;> exact ih _ _ _ x y h

/-- C10 (amended): `merge` does mutate its first argument at every aligned
position — after the call, each position of the first pattern that an `Align`
step paired has been overwritten with a `placeholder` (the literal there was
moved into the output). The first argument can still remain equal to its
pre-call value when no `Align` step pairs a non-placeholder position (see
`mergeFull_first_unchanged_counterexample`). -/
theorem mergeFull_align_overwrites (a b : Pattern) (x y : ℕ)
    (h : Step.align x y ∈ traceback a b a.length b.length) :
    ((mergeFull a b).2).getD x PatternElement.placeholder = PatternElement.placeholder := by
  unfold mergeFull
  by_cases hab : a = [] ∧ b = []
  · exfalso
    obtain ⟨ha, hb⟩ := hab
    subst ha; subst hb
    simp [traceback, tracebackUpTo] at h
  · rw [if_neg hab]
    exact emitSteps_align_mem_ph _ _ _ _ x y h

/-- Witness for `mergeFull_align_overwrites` on `merge(["a"], ["a"])`: the one
`Align` step pairs position 0, which reads back as `placeholder` afterwards. -/
theorem mergeFull_align_overwrites_witness :
    Step.align 0 0 ∈ traceback [PatternElement.text "a"] [PatternElement.text "a"]
        ([PatternElement.text "a"] : Pattern).length
        ([PatternElement.text "a"] : Pattern).length ∧
      ((mergeFull [PatternElement.text "a"] [PatternElement.text "a"]).2).getD 0
        PatternElement.placeholder = PatternElement.placeholder :=
  ⟨by decide,
    mergeFull_align_overwrites [PatternElement.text "a"] [PatternElement.text "a"] 0 0 (by decide)⟩

/-- C10 (counterexample): with an empty first pattern, the alignment has no
`Align` steps, nothing is moved out, and the first argument is exactly its
pre-call value after the call — so `merge` does not always leave its first
argument different from its pre-call value. -/
theorem mergeFull_first_unchanged_counterexample :
    (mergeFull ([] : Pattern) [PatternElement.text "x"]).2 = ([] : Pattern) := by decide

end Logmine

namespace Logmine

theorem alignScore_zero (a b : Pattern) (j : ℕ) : alignScore a b 0 j = 0 := rfl

theorem alignScore_succ_zero (a b : Pattern) (i : ℕ) : alignScore a b (i + 1) 0 = 0 := rfl

theorem alignScore_succ_succ (a b : Pattern) (i j : ℕ) :
    alignScore a b (i + 1) (j + 1) =
      max (alignScore a b i j + stepScore a b i j)
        (max (alignScore a b i (j + 1)) (alignScore a b (i + 1) j)) := rfl

theorem traceback_zero (a b : Pattern) (j : ℕ) :
    traceback a b 0 j = (List.range j).map Step.insert := rfl

theorem traceback_succ_zero (a b : Pattern) (i : ℕ) :
    traceback a b (i + 1) 0 = traceback a b i 0 ++ [Step.delete i] := rfl

theorem traceback_succ_succ (a b : Pattern) (i j : ℕ) :
    traceback a b (i + 1) (j + 1) =
      if alignScore a b i (j + 1) ≤ alignScore a b i j + stepScore a b i j ∧
          alignScore a b (i + 1) j ≤ alignScore a b i j + stepScore a b i j then
        traceback a b i j ++ [Step.align i j]
      else if alignScore a b (i + 1) j ≤ alignScore a b i (j + 1) then
        traceback a b i (j + 1) ++ [Step.delete i]
      else traceback a b (i + 1) j ++ [Step.insert j] := rfl

theorem stepScore_le (a b : Pattern) (i j : ℕ) : stepScore a b i j ≤ 10 := by
  unfold stepScore
  split <;> norm_num

/-- Each matrix cell is bounded by ten times the number of pairs that can be
aligned: every Align step contributes at most +10 and gaps contribute 0. -/
theorem alignScore_le (a b : Pattern) : ∀ i j, alignScore a b i j ≤ 10 * ((min i j : ℕ) : ℤ) := by
  intro i
  induction i with
  | zero =>
    intro j
    simp [alignScore_zero]
  | succ i ihi =>
    intro j
    induction j with
    | zero => simp [alignScore_succ_zero]
    | succ j ihj =>
      rw [alignScore_succ_succ]
      apply max_le
      · calc alignScore a b i j + stepScore a b i j
            ≤ 10 * ((min i j : ℕ) : ℤ) + 10 := add_le_add (ihi j) (stepScore_le a b i j)
          _ = 10 * (((min i j + 1 : ℕ)) : ℤ) := by push_cast; ring
          _ = 10 * ((min (i + 1) (j + 1) : ℕ) : ℤ) := by rw [Nat.succ_min_succ]
      · apply max_le
        · calc alignScore a b i (j + 1) ≤ 10 * ((min i (j + 1) : ℕ) : ℤ) := ihi (j + 1)
            _ ≤ 10 * ((min (i + 1) (j + 1) : ℕ) : ℤ) := by
              exact mul_le_mul_of_nonneg_left
                (Nat.cast_le.mpr (min_le_min (Nat.le_succ i) le_rfl)) (by norm_num)
        · calc alignScore a b (i + 1) j ≤ 10 * ((min (i + 1) j : ℕ) : ℤ) := ihj
            _ ≤ 10 * ((min (i + 1) (j + 1) : ℕ) : ℤ) := by
              exact mul_le_mul_of_nonneg_left
                (Nat.cast_le.mpr (min_le_min le_rfl (Nat.le_succ j))) (by norm_num)

theorem stepScore_self (a : Pattern) (k : ℕ) : stepScore a a k k = 10 := by
  simp [stepScore]

/-- Aligning a pattern with itself scores a perfect 10 per diagonal position. -/
theorem alignScore_self_diag (a : Pattern) : ∀ i, alignScore a a i i = 10 * (i : ℤ) := by
  intro i
  induction i with
  | zero => simp [alignScore_zero]
  | succ i ih =>
    rw [alignScore_succ_succ, stepScore_self, ih]
    have hu : alignScore a a i (i + 1) ≤ 10 * (i : ℤ) := by
      have := alignScore_le a a i (i + 1)
      rwa [min_eq_left (Nat.le_succ i)] at this
    have hl : alignScore a a (i + 1) i ≤ 10 * (i : ℤ) := by
      have := alignScore_le a a (i + 1) i
      rwa [min_eq_right (Nat.le_succ i)] at this
    rw [max_eq_left (max_le (by linarith) (by linarith))]
    push_cast
    ring

/-- The traceback of a pattern against itself takes the diagonal at every
step: the optimal alignment is `Align 0 0, …, Align (i-1) (i-1)`. -/
theorem traceback_self_diag (a : Pattern) :
    ∀ i, traceback a a i i = (List.range i).map (fun k => Step.align k k) := by
  intro i
  induction i with
  | zero => simp [traceback_zero]
  | succ i ih =>
    rw [traceback_succ_succ]
    have hu : alignScore a a i (i + 1) ≤ alignScore a a i i + stepScore a a i i := by
      rw [alignScore_self_diag, stepScore_self]
      have := alignScore_le a a i (i + 1)
      rw [min_eq_left (Nat.le_succ i)] at this
      linarith
    have hl : alignScore a a (i + 1) i ≤ alignScore a a i i + stepScore a a i i := by
      rw [alignScore_self_diag, stepScore_self]
      have := alignScore_le a a (i + 1) i
      rw [min_eq_right (Nat.le_succ i)] at this
      linarith
    rw [if_pos ⟨hu, hl⟩, ih, List.range_succ, List.map_append]
    rfl

/-- Emitting a block of diagonal Align steps `k, k+1, …, k+m-1` over a pattern
that still agrees with `a` from position `k` on copies `a[k..k+m)` to the
output. -/
theorem emitSteps_diag (a : Pattern) : ∀ (m k : ℕ) (aMut out : Pattern) (jip : Bool),
    k + m ≤ a.length →
    (∀ x, k ≤ x → aMut.getD x PatternElement.placeholder = a.getD x PatternElement.placeholder) →
    (emitSteps ((List.range' k m).map (fun t => Step.align t t)) aMut out jip).1 =
      out ++ (a.drop k).take m := by
  intro m
  induction m with
  | zero => intro k aMut out jip _ _; simp [emitSteps]
  | succ m ih =>
    intro k aMut out jip hlen hagree
    rw [List.range'_succ, List.map_cons]
    simp only [emitSteps]
    rw [hagree k le_rfl]
    have hk : k < a.length := by omega
    rw [ih (k + 1) _ _ false (by omega) ?_]
    · rw [List.getD_eq_getElem _ _ hk]
      conv_rhs => rw [List.drop_eq_getElem_cons hk, List.take_succ_cons]
      simp
    · intro x hx
      rw [getD_set_ne _ _ _ _ _ (by omega)]
      exact hagree x (by omega)

/-- C8: merge is idempotent — `merge(p, p)` returns `p` itself, and in
particular its element count is exactly `len(p)`. -/
theorem merge_self (p : Pattern) :
    Pattern.merge p p = p ∧ (Pattern.merge p p).length = p.length := by
  have hmain : Pattern.merge p p = p := by
    rcases eq_or_ne p [] with rfl | hp
    · rfl
    · unfold Pattern.merge mergeFull
      rw [if_neg (by simp [hp])]
      rw [traceback_self_diag, List.range_eq_range']
      rw [emitSteps_diag p p.length 0 p [] false (by omega) (fun x _ => rfl)]
      simp
  exact ⟨hmain, by rw [hmain]⟩

end Logmine

namespace Logmine

/-- A global alignment of prefixes `(i, j)` has at most `i + j` steps: every
step consumes at least one position. -/
theorem traceback_length (a b : Pattern) : ∀ i j, (traceback a b i j).length ≤ i + j := by
  intro i
  induction i with
  | zero =>
    intro j
    rw [traceback_zero]
    simp
  | succ i ihi =>
    intro j
    induction j with
    | zero =>
      rw [traceback_succ_zero]
      have := ihi 0
      simp only [List.length_append, List.length_singleton]
      omega
    | succ j ihj =>
      rw [traceback_succ_succ]
      split_ifs with h1 h2
      · have := ihi j
        simp only [List.length_append, List.length_singleton]
        omega
      · have := ihi (j + 1)
        simp only [List.length_append, List.length_singleton]
        omega
      · simp only [List.length_append, List.length_singleton]
        omega

/-- The emission loop appends at most one output element per step. -/
theorem emitSteps_fst_length : ∀ (steps : List Step) (aMut out : Pattern) (jip : Bool),
    (emitSteps steps aMut out jip).1.length ≤ out.length + steps.length := by
  intro steps
  induction steps with
  | nil => intro aMut out jip; simp [emitSteps]
  | cons s rest ih =>
    intro aMut out jip
    cases s with
    | align u v =>
      simp only [emitSteps]
      have := ih (aMut.set u PatternElement.placeholder)
        (out ++ [aMut.getD u PatternElement.placeholder]) false
      simp only [List.length_append, List.length_singleton, List.length_cons,
        List.length_nil] at this ⊢
      omega
    | delete u =>
      simp only [emitSteps]
      split
      · have := ih aMut out true
        simp only [List.length_cons]
        omega
      · have := ih aMut (out ++ [PatternElement.placeholder]) true
        simp only [List.length_append, List.length_singleton, List.length_cons,
          List.length_nil] at this ⊢
        omega
    | insert u =>
      simp only [emitSteps]
      split
      · have := ih aMut out true
        simp only [List.length_cons]
        omega
      · have := ih aMut (out ++ [PatternElement.placeholder]) true
        simp only [List.length_append, List.length_singleton, List.length_cons,
          List.length_nil] at this ⊢
        omega

theorem alignsFrom_append_del : ∀ (l : List Step) (lo u : ℕ), AlignsFrom lo l →
    AlignsFrom lo (l ++ [Step.delete u]) := by
  intro l
  induction l with
  | nil => intro lo u _; exact trivial
  | cons s rest ih =>
    intro lo u h
    cases s with
    | align x y =>
      obtain ⟨h1, h2⟩ := h
      exact ⟨h1, ih _ _ h2⟩
    | delete x => exact ih _ _ h
    | insert x => exact ih _ _ h

theorem alignsFrom_append_ins : ∀ (l : List Step) (lo u : ℕ), AlignsFrom lo l →
    AlignsFrom lo (l ++ [Step.insert u]) := by
  intro l
  induction l with
  | nil => intro lo u _; exact trivial
  | cons s rest ih =>
    intro lo u h
    cases s with
    | align x y =>
      obtain ⟨h1, h2⟩ := h
      exact ⟨h1, ih _ _ h2⟩
    | delete x => exact ih _ _ h
    | insert x => exact ih _ _ h

theorem alignsFrom_append_align : ∀ (l : List Step) (lo i j : ℕ), AlignsFrom lo l →
    (∀ x y, Step.align x y ∈ l → x < i) → lo ≤ i →
    AlignsFrom lo (l ++ [Step.align i j]) := by
  intro l
  induction l with
  | nil => intro lo i j _ _ hlo; exact ⟨hlo, trivial⟩
  | cons s rest ih =>
    intro lo i j h hmem hlo
    cases s with
    | align x y =>
      obtain ⟨h1, h2⟩ := h
      refine ⟨h1, ih _ _ _ h2 (fun x' y' hm => hmem x' y' (by simp [hm])) ?_⟩
      exact hmem x y (by simp)
    | delete x => exact ih _ _ _ h (fun x' y' hm => hmem x' y' (by simp [hm])) hlo
    | insert x => exact ih _ _ _ h (fun x' y' hm => hmem x' y' (by simp [hm])) hlo

/-- The traceback's Align steps are strictly increasing in their first
component and all index valid positions of the first prefix. -/
theorem traceback_aligns (a b : Pattern) : ∀ i j,
    AlignsFrom 0 (traceback a b i j) ∧
      (∀ x y, Step.align x y ∈ traceback a b i j → x < i) := by
  intro i
  induction i with
  | zero =>
    intro j
    rw [traceback_zero]
    constructor
    · have hall : ∀ (ns : List ℕ) (lo : ℕ), AlignsFrom lo (ns.map Step.insert) := by
        intro ns
        induction ns with
        | nil => intro lo; exact trivial
        | cons n t iht => intro lo; exact iht lo
      exact hall _ 0
    · intro x y hm
      simp [List.mem_map] at hm
  | succ i ihi =>
    intro j
    induction j with
    | zero =>
      rw [traceback_succ_zero]
      obtain ⟨hA, hM⟩ := ihi 0
      refine ⟨alignsFrom_append_del _ _ _ hA, ?_⟩
      intro x y hm
      rw [List.mem_append] at hm
      rcases hm with hm | hm
      · exact Nat.lt_succ_of_lt (hM x y hm)
      · simp at hm
    | succ j ihj =>
      rw [traceback_succ_succ]
      split_ifs with h1 h2
      · obtain ⟨hA, hM⟩ := ihi j
        refine ⟨alignsFrom_append_align _ _ _ _ hA hM (Nat.zero_le i), ?_⟩
        intro x y hm
        rw [List.mem_append] at hm
        rcases hm with hm | hm
        · exact Nat.lt_succ_of_lt (hM x y hm)
        · simp at hm
          omega
      · obtain ⟨hA, hM⟩ := ihi (j + 1)
        refine ⟨alignsFrom_append_del _ _ _ hA, ?_⟩
        intro x y hm
        rw [List.mem_append] at hm
        rcases hm with hm | hm
        · exact Nat.lt_succ_of_lt (hM x y hm)
        · simp at hm
      · obtain ⟨hA, hM⟩ := ihj
        refine ⟨alignsFrom_append_ins _ _ _ hA, ?_⟩
        intro x y hm
        rw [List.mem_append] at hm
        rcases hm with hm | hm
        · exact hM x y hm
        · simp at hm

/-- Appending a placeholder to an output whose last element is not a
placeholder preserves the no-adjacent-placeholders property. -/
theorem noAdj_append_ph (out : Pattern) (h : NoAdjacentPlaceholders out)
    (hlast : ∀ u ∈ out.getLast?, u ≠ PatternElement.placeholder) :
    NoAdjacentPlaceholders (out ++ [PatternElement.placeholder]) := by
  unfold NoAdjacentPlaceholders at h ⊢
  rw [List.chain'_append]
  refine ⟨h, List.chain'_singleton _, ?_⟩
  intro x hx y hy
  simp only [List.head?_cons, Option.mem_def, Option.some.injEq] at hy
  exact Or.inl (hlast x hx)

/-- Appending a non-placeholder element always preserves the
no-adjacent-placeholders property. -/
theorem noAdj_append_ne (out : Pattern) (v : PatternElement)
    (hv : v ≠ PatternElement.placeholder) (h : NoAdjacentPlaceholders out) :
    NoAdjacentPlaceholders (out ++ [v]) := by
  unfold NoAdjacentPlaceholders at h ⊢
  rw [List.chain'_append]
  refine ⟨h, List.chain'_singleton _, ?_⟩
  intro x hx y hy
  simp only [List.head?_cons, Option.mem_def, Option.some.injEq] at hy
  subst hy
  exact Or.inr hv

/-- Emission invariant: as long as the remaining Align steps read positions
(at or above `lo`) where the working pattern still agrees with the original
placeholder-free `a`, the output never receives two adjacent placeholders. -/
theorem emitSteps_no_adj (a : Pattern) (hpa : PatternElement.placeholder ∉ a) :
    ∀ (steps : List Step) (lo : ℕ) (aMut out : Pattern) (jip : Bool),
      AlignsFrom lo steps →
      (∀ x y, Step.align x y ∈ steps → x < a.length) →
      (∀ x, lo ≤ x → aMut.getD x PatternElement.placeholder = a.getD x PatternElement.placeholder) →
      NoAdjacentPlaceholders out →
      (jip = false → ∀ u ∈ out.getLast?, u ≠ PatternElement.placeholder) →
      NoAdjacentPlaceholders ((emitSteps steps aMut out jip).1) := by
  intro steps
  induction steps with
  | nil => intro lo aMut out jip _ _ _ hout _; simpa [emitSteps] using hout
  | cons s rest ih =>
    intro lo aMut out jip hA hmem hagree hout hlast
    cases s with
    | align x y =>
      obtain ⟨hlo, hA'⟩ := hA
      have hx : x < a.length := hmem x y (by simp)
      have hel : aMut.getD x PatternElement.placeholder = a.getD x PatternElement.placeholder :=
        hagree x hlo
      have helne : aMut.getD x PatternElement.placeholder ≠ PatternElement.placeholder := by
        rw [hel, List.getD_eq_getElem _ _ hx]
        intro he
        exact hpa (he ▸ List.getElem_mem hx)
      simp only [emitSteps]
      apply ih (x + 1) _ _ false hA'
        (fun x' y' hm => hmem x' y' (by simp [hm]))
      · intro z hz
        rw [getD_set_ne _ _ _ _ _ (by omega)]
        exact hagree z (by omega)
      · exact noAdj_append_ne out _ helne hout
      · intro _ u hu
        rw [List.getLast?_concat] at hu
        simp only [Option.mem_def, Option.some.injEq] at hu
        subst hu
        exact helne
    | delete u =>
      simp only [emitSteps]
      split
      · next hjip =>
        exact ih lo _ _ true hA (fun x' y' hm => hmem x' y' (by simp [hm])) hagree hout
          (by intro h; exact absurd h (by simp))
      · next hjip =>
        have hjf : jip = false := by
          cases jip
          · rfl
          · exact absurd rfl hjip
        apply ih lo _ _ true hA (fun x' y' hm => hmem x' y' (by simp [hm])) hagree
        · exact noAdj_append_ph out hout (hlast hjf)
        · intro h; exact absurd h (by simp)
    | insert u =>
      simp only [emitSteps]
      split
      · next hjip =>
        exact ih lo _ _ true hA (fun x' y' hm => hmem x' y' (by simp [hm])) hagree hout
          (by intro h; exact absurd h (by simp))
      · next hjip =>
        have hjf : jip = false := by
          cases jip
          · rfl
          · exact absurd rfl hjip
        apply ih lo _ _ true hA (fun x' y' hm => hmem x' y' (by simp [hm])) hagree
        · exact noAdj_append_ph out hout (hlast hjf)
        · intro h; exact absurd h (by simp)

/-- C4 (amended): `merge(a, b)` always has at most `len(a) + len(b)` elements;
and whenever the first input contains no placeholder (in particular whenever
it is a freshly tokenized record), no two placeholders are adjacent in the
output. (Without that proviso adjacency can occur, see
`merge_adjacent_counterexample`.) -/
theorem merge_length_and_no_adjacent (a b : Pattern) :
    (Pattern.merge a b).length ≤ a.length + b.length ∧
      (PatternElement.placeholder ∉ a → NoAdjacentPlaceholders (Pattern.merge a b)) := by
  constructor
  · unfold Pattern.merge mergeFull
    by_cases hab : a = [] ∧ b = []
    · rw [if_pos hab]
      simp
    · rw [if_neg hab]
      calc (emitSteps (traceback a b a.length b.length) a [] false).1.length
          ≤ ([] : Pattern).length + (traceback a b a.length b.length).length :=
            emitSteps_fst_length _ _ _ _
        _ ≤ a.length + b.length := by
            have := traceback_length a b a.length b.length
            simp only [List.length_nil]
            omega
  · intro hpa
    unfold Pattern.merge mergeFull
    by_cases hab : a = [] ∧ b = []
    · rw [if_pos hab]
      exact List.chain'_nil
    · rw [if_neg hab]
      obtain ⟨hA, hM⟩ := traceback_aligns a b a.length b.length
      exact emitSteps_no_adj a hpa _ 0 a [] false hA hM (fun x _ => rfl)
        List.chain'_nil (by intro _ u hu; simp at hu)

/-- Witness for `merge_length_and_no_adjacent` at `a = ["a"]`, `b = ["b"]`
(the merge is a single placeholder; the length bound and the adjacency
property hold). -/
theorem merge_length_and_no_adjacent_witness :
    PatternElement.placeholder ∉ ([PatternElement.text "a"] : Pattern) ∧
      NoAdjacentPlaceholders (Pattern.merge [PatternElement.text "a"] [PatternElement.text "b"]) :=
  ⟨by decide,
    (merge_length_and_no_adjacent [PatternElement.text "a"] [PatternElement.text "b"]).2 (by decide)⟩

/-- C4 (counterexample): with placeholders already present in the inputs —
exactly what happens when the parallel reduction merges two evolved cluster
patterns — `merge` can emit two adjacent placeholders: the aligned
placeholder pair is emitted literally next to a gap placeholder. -/
theorem merge_adjacent_counterexample :
    Pattern.merge [PatternElement.placeholder]
        [PatternElement.placeholder, PatternElement.text "x"] =
      [PatternElement.placeholder, PatternElement.placeholder] ∧
      ¬ NoAdjacentPlaceholders (Pattern.merge [PatternElement.placeholder]
          [PatternElement.placeholder, PatternElement.text "x"]) := by
  constructor
  · decide
  · have hval : Pattern.merge [PatternElement.placeholder]
        [PatternElement.placeholder, PatternElement.text "x"] =
      [PatternElement.placeholder, PatternElement.placeholder] := by decide
    rw [hval]
    intro h
    rcases List.chain'_cons.mp h with ⟨hr, _⟩
    rcases hr with hr | hr <;> exact hr rfl

end Logmine
